import Mathlib

/-!
Verification development for the lambda-calculus front end in `src/lib.rs`.

The Rust code has two parts:
* `mod lexer`: a `logos`-derived tokenizer `Token` with rules
  `"λ"`, `"."`, `":="`, `"("`, `")"`, `[a-z]`, `[A-Z]+[0-9]*`, an error
  variant, and skipped whitespace `[ \t\r\n]+`; `logos` pairs each emitted
  token with a half-open byte span.
* `mod parser` and `run`: a `chumsky` grammar
  `expr = (abstraction | (expr delimited by parens) | name | expr | application)
          then_ignore end`,
  built with `recursive`, run over `Stream::from_iter(len..len+1, lexer)`.

Everything below is a shallow embedding of that code.  The chumsky
combinators are backtracking ordered-choice combinators: `or` runs its
left parser and, only if it fails, rewinds and runs the right one; a
parser that succeeds is committed.  `recursive` ties the knot with no
left-recursion protection, so a self-reference reached at an unchanged
input position recurses forever (a stack overflow at run time).  We
model that recursion with an explicit fuel parameter: a parse that
returns `none` at every fuel is one that never returns in the real code.
-/

namespace Lam

/-! ## Lexer: shallow embedding of `mod lexer` (`logos` derive on `Token`) -/

/-- The token alphabet of `lexer::Token` (`src/lib.rs` lines 9-33). -/
inductive Token where
  | lambda
  | dot
  | binding
  | parenO
  | parenC
  | ident (s : String)
  | error
deriving DecidableEq, Repr

/-- Characters skipped by the rule `#[regex(r"[ \t\r\n]+", logos::skip)]`. -/
def isWhitespace (c : Char) : Bool := c = ' ' || c = '\t' || c = '\r' || c = '\n'

/-- Characters matched by the rule `#[regex("[a-z]")]` (one char per token). -/
def isLowerAZ (c : Char) : Bool := 'a' ≤ c && c ≤ 'z'

/-- The `[A-Z]` part of the rule `#[regex("[A-Z]+[0-9]*")]`. -/
def isUpperAZ (c : Char) : Bool := 'A' ≤ c && c ≤ 'Z'

/-- The `[0-9]` part of the rule `#[regex("[A-Z]+[0-9]*")]`. -/
def isDigit09 (c : Char) : Bool := '0' ≤ c && c ≤ '9'

/-- Total UTF-8 byte length of a character list; `logos` spans are byte offsets. -/
def utf8Len (cs : List Char) : Nat := (cs.map Char.utf8Size).sum

/-- One scan of the `logos` automaton over the whole input, keeping every
consumed chunk: `none` marks a skipped whitespace character, `some t` a
token emitted with its half-open byte span.  Longest match applies inside
each rule (`[A-Z]+[0-9]*` is maximal munch); `[a-z]` matches exactly one
character; `:=` falls back to a one-byte error token when the `=` is
missing; any otherwise unmatched character becomes `Token.error` spanning
its own bytes. -/
def lexChunksF : Nat → List Char → Nat → List (Option Token × Nat × Nat)
  | 0, _, _ => []
  | _ + 1, [], _ => []
  | fuel + 1, c :: cs, p =>
    if isWhitespace c then
      (none, p, p + 1) :: lexChunksF fuel cs (p + 1)
    else if c = 'λ' then
      (some Token.lambda, p, p + 2) :: lexChunksF fuel cs (p + 2)
    else if c = '.' then
      (some Token.dot, p, p + 1) :: lexChunksF fuel cs (p + 1)
    else if c = ':' then
      if cs.head? = some '=' then
        (some Token.binding, p, p + 2) :: lexChunksF fuel cs.tail (p + 2)
      else
        (some Token.error, p, p + 1) :: lexChunksF fuel cs (p + 1)
    else if c = '(' then
      (some Token.parenO, p, p + 1) :: lexChunksF fuel cs (p + 1)
    else if c = ')' then
      (some Token.parenC, p, p + 1) :: lexChunksF fuel cs (p + 1)
    else if isLowerAZ c then
      (some (Token.ident (String.mk [c])), p, p + 1) :: lexChunksF fuel cs (p + 1)
    else if isUpperAZ c then
      let us := cs.takeWhile isUpperAZ
      let r1 := cs.dropWhile isUpperAZ
      let ds := r1.takeWhile isDigit09
      let r2 := r1.dropWhile isDigit09
      let n := 1 + us.length + ds.length
      (some (Token.ident (String.mk (c :: (us ++ ds)))), p, p + n) :: lexChunksF fuel r2 (p + n)
    else
      (some Token.error, p, p + c.utf8Size) :: lexChunksF fuel cs (p + c.utf8Size)

/-- The whole chunk scan.  The fuel `cs.length` always suffices because
every step of the automaton consumes at least one character. -/
def lexChunks (cs : List Char) (p : Nat) : List (Option Token × Nat × Nat) :=
  lexChunksF cs.length cs p

/-- The spanned token stream `lexer.spanned()` feeds into the parser:
the emitted tokens of `lexChunks`, whitespace dropped. -/
def lex (cs : List Char) (p : Nat) : List (Token × Nat × Nat) :=
  (lexChunks cs p).filterMap fun ch => ch.1.map fun t => (t, ch.2)

/-! ## Parser: shallow embedding of `mod parser` and the chumsky combinators -/

/-- The AST `parser::Expr` (`src/lib.rs` lines 55-65). -/
inductive Expr where
  | name (s : String)
  | application (callee : Expr) (argument : Expr)
  | abstraction (params : List Char) (body : Expr)
deriving DecidableEq, Repr

/-- The reason carried by a `chumsky::error::Simple`: plain unexpected
input, or an unclosed delimiter remembering the opening span. -/
inductive SimpleReason where
  | unexpected
  | unclosed (span : Nat × Nat) (delimiter : Token)
deriving DecidableEq, Repr

/-- The error type `chumsky::error::Simple<Token>`: a span, the expected
set (`none` denotes end of input), the found token (`none` at end of
input), a reason, and the label set by `labelled`. -/
structure Simple where
  span : Nat × Nat
  expected : List (Option Token)
  found : Option Token
  reason : SimpleReason
  label : Option String
deriving DecidableEq, Repr

/-- `Simple::with_label` uses `get_or_insert`: an already-labelled error
keeps its innermost label. -/
def Simple.withLabel (e : Simple) (l : String) : Simple :=
  { e with label := some (e.label.getD l) }

/-- An error located in the stream: `rem` is the number of tokens left at
the failure point (fewer remaining = the error is further along), which is
how chumsky compares alternative errors when both sides of an `or` fail. -/
structure Located where
  rem : Nat
  err : Simple
deriving DecidableEq, Repr

/-- Apply `labelled` to a located error. -/
def locLabel (e : Located) (l : String) : Located :=
  { e with err := e.err.withLabel l }

/-- A token paired with its span, as produced by `lexer.spanned()`. -/
abbrev SpTok := Token × Nat × Nat

/-- Result of running an embedded parser on a token list: `none` models a
computation that never returns (the fuel for `recursive` ran out), `some`
an actual chumsky outcome — an error, or a value with the rest of the
stream. -/
abbrev PRes (α : Type) := Option (Except Located (α × List SpTok))

instance {ε α : Type} [DecidableEq ε] [DecidableEq α] : DecidableEq (Except ε α) := fun a b =>
  match a, b with
  | Except.ok x, Except.ok y =>
    match decEq x y with
    | isTrue h => isTrue (congrArg Except.ok h)
    | isFalse h => isFalse fun he => h (Except.ok.inj he)
  | Except.error x, Except.error y =>
    match decEq x y with
    | isTrue h => isTrue (congrArg Except.error h)
    | isFalse h => isFalse fun he => h (Except.error.inj he)
  | Except.ok _, Except.error _ => isFalse fun he => Except.noConfusion he
  | Except.error _, Except.ok _ => isFalse fun he => Except.noConfusion he

/-- Span of the next token, or the end-of-input span `len..len+1` that
`run` passes to `Stream::from_iter`. -/
def spanOf (eoi : Nat × Nat) : List SpTok → Nat × Nat
  | [] => eoi
  | (_, a, b) :: _ => (a, b)

/-- `chumsky::primitive::just(tk)`: consume exactly the token `tk`. -/
def justP (tk : Token) (eoi : Nat × Nat) (ts : List SpTok) :
    Except Located (Token × List SpTok) :=
  match ts with
  | (t, a, b) :: rest =>
    if t = tk then Except.ok (t, rest)
    else Except.error ⟨ts.length, ⟨(a, b), [some tk], some t, SimpleReason.unexpected, none⟩⟩
  | [] => Except.error ⟨0, ⟨eoi, [some tk], none, SimpleReason.unexpected, none⟩⟩

/-- The `ident` parser (`src/lib.rs` lines 69-73): `filter_map` keeping
`Token::Ident` and rejecting anything else with
`Simple::expected_input_found(span, [], Some(token))`, then
`.labelled("ident")`. -/
def identP (eoi : Nat × Nat) (ts : List SpTok) :
    Except Located (String × List SpTok) :=
  match ts with
  | (Token.ident s, _, _) :: rest => Except.ok (s, rest)
  | (t, a, b) :: _ =>
    Except.error ⟨ts.length, ⟨(a, b), [], some t, SimpleReason.unexpected, some "ident"⟩⟩
  | [] => Except.error ⟨0, ⟨eoi, [], none, SimpleReason.unexpected, some "ident"⟩⟩

/-- `chumsky::primitive::end()`: succeeds only when no token remains;
otherwise fails expecting end of input (`none` in the expected set). -/
def endP (eoi : Nat × Nat) (ts : List SpTok) :
    Except Located (Unit × List SpTok) :=
  match ts with
  | [] => Except.ok ((), [])
  | (t, a, b) :: _ =>
    Except.error ⟨ts.length, ⟨(a, b), [none], some t, SimpleReason.unexpected, none⟩⟩

/-- `Simple::merge`: union the expected sets, preferring an unclosed
reason over a plain unexpected one. -/
def mergeSimple (e1 e2 : Simple) : Simple :=
  { e1 with
    expected := e1.expected ++ e2.expected
    reason :=
      match e1.reason with
      | SimpleReason.unclosed sp d => SimpleReason.unclosed sp d
      | SimpleReason.unexpected => e2.reason }

/-- When both sides of an `or` fail, chumsky keeps the error that got
further into the stream, merging the two on a tie. -/
def pickErr (e1 e2 : Located) : Located :=
  if e1.rem < e2.rem then e1
  else if e2.rem < e1.rem then e2
  else ⟨e1.rem, mergeSimple e1.err e2.err⟩

/-- `a.or(b)`: run `a`; on success commit to it; on failure rewind and
run `b`; if both fail keep the better error.  A non-returning side makes
the whole parse non-returning, because chumsky really runs it. -/
def orRes {α : Type} (a : PRes α) (b : PRes α) : PRes α :=
  match a with
  | none => none
  | some (Except.ok v) => some (Except.ok v)
  | some (Except.error e1) =>
    match b with
    | none => none
    | some (Except.ok v) => some (Except.ok v)
    | some (Except.error e2) => some (Except.error (pickErr e1 e2))

/-- Sequencing, as in chumsky's `then`/`ignore_then`/`then_ignore`: run
the first parser; propagate its error (or non-return); otherwise feed the
value and the rest of the stream to the continuation. -/
def thenR {α β : Type} (x : PRes α) (f : α → List SpTok → PRes β) : PRes β :=
  match x with
  | none => none
  | some (Except.error e) => some (Except.error e)
  | some (Except.ok (a, ts1)) => f a ts1

/-- `labelled(l)`: label the error of a failed parse; successes and
non-returns pass through. -/
def labelledR {α : Type} (l : String) (x : PRes α) : PRes α :=
  match x with
  | some (Except.error e) => some (Except.error (locLabel e l))
  | other => other

/-- A parser that succeeds immediately with `a`, leaving `ts` to read. -/
def okR {α : Type} (a : α) (ts : List SpTok) : PRes α :=
  some (Except.ok (a, ts))

/-- The `abstraction` alternative (`src/lib.rs` lines 79-87):
`just(Lambda).ignore_then(parameters).then_ignore(just(Dot)).then(expr)`,
mapped to `Expr::Abstraction`, labelled `"abstraction"`; `parameters` is
`ident.map(|i| i.chars().collect()).labelled("parameters")`.  `rp` is the
recursive `expr` reference. -/
def absB (eoi : Nat × Nat) (rp : List SpTok → PRes Expr) (ts : List SpTok) : PRes Expr :=
  labelledR "abstraction"
    (thenR (some (justP Token.lambda eoi ts)) fun _ ts1 =>
      thenR (labelledR "parameters" (some (identP eoi ts1))) fun s ts2 =>
        thenR (some (justP Token.dot eoi ts2)) fun _ ts3 =>
          thenR (rp ts3) fun body ts4 =>
            okR (Expr.abstraction s.toList body) ts4)

/-- The parenthesized alternative (`src/lib.rs` line 103):
`expr.delimited_by(Token::ParenO, Token::ParenC)`.  A missing closing
token is reported as an unclosed-delimiter error remembering the opening
span, which is what the `SimpleReason::Unclosed` arm of `run` consumes. -/
def parenB (eoi : Nat × Nat) (rp : List SpTok → PRes Expr) (ts : List SpTok) : PRes Expr :=
  thenR (some (justP Token.parenO eoi ts)) fun _ ts1 =>
    thenR (rp ts1) fun inner ts2 =>
      match justP Token.parenC eoi ts2 with
      | Except.error e =>
        some (Except.error
          ⟨e.rem, { e.err with reason := SimpleReason.unclosed (spanOf eoi ts) Token.parenO }⟩)
      | Except.ok (_, ts3) => okR inner ts3

/-- The `name_expr` alternative (`src/lib.rs` lines 89-91):
`ident.map(Expr::Name).labelled("name")`. -/
def nameB (eoi : Nat × Nat) (ts : List SpTok) : PRes Expr :=
  labelledR "name"
    (thenR (some (identP eoi ts)) fun s ts1 => okR (Expr.name s) ts1)

/-- The `application` alternative (`src/lib.rs` lines 93-100):
`expr.then(expr)` mapped to `Expr::Application`, labelled
`"application"`. -/
def appB (eoi : Nat × Nat) (rp : List SpTok → PRes Expr) (ts : List SpTok) : PRes Expr :=
  labelledR "application"
    (thenR (rp ts) fun callee ts1 =>
      thenR (rp ts1) fun arg ts2 => okR (Expr.application callee arg) ts2)

/-- One unfolding of the body of `recursive` (`src/lib.rs` lines 102-108):
`abstraction .or(delimited) .or(name_expr) .or(expr) .or(application)
.then_ignore(end()) .labelled("expression")`, with `rp` standing for the
recursive `expr` reference. -/
def exprStep (eoi : Nat × Nat) (rp : List SpTok → PRes Expr) (ts : List SpTok) : PRes Expr :=
  labelledR "expression"
    (thenR (orRes (orRes (orRes (orRes (absB eoi rp ts) (parenB eoi rp ts)) (nameB eoi ts))
        (rp ts)) (appB eoi rp ts)) fun e ts1 =>
      thenR (some (endP eoi ts1)) fun _ _ => okR e ts1)

/-- The recursive `expr` parser with explicit fuel: each self-reference
inside the grammar costs one unit.  `exprP eoi f ts = none` means the
real parser is still recursing after `f` unfoldings; a result that is
`none` for every `f` is a parse that never returns. -/
def exprP (eoi : Nat × Nat) : Nat → List SpTok → PRes Expr
  | 0, _ => none
  | fuel + 1, ts => exprStep eoi (exprP eoi fuel) ts

/-- The whole pipeline of `run` up to the `match` on the parse outcome
(`src/lib.rs` lines 113-122): tokenize, build the stream with
end-of-input span `len..len+1`, and run `expr_parser().parse`. -/
def parseWith (fuel : Nat) (cs : List Char) : Option (Except Simple Expr) :=
  match exprP (utf8Len cs, utf8Len cs + 1) fuel (lex cs 0) with
  | none => none
  | some (Except.ok (e, _)) => some (Except.ok e)
  | some (Except.error e) => some (Except.error e.err)

/-- The real (unfueled) parser returns `r` on input `cs`. -/
def parseReturns (cs : List Char) (r : Except Simple Expr) : Prop :=
  ∃ fuel, parseWith fuel cs = some r

/-- The real parser never returns on input `cs` (infinite recursion
through the `or(expr)` alternative — a stack overflow at run time). -/
def parseDiverges (cs : List Char) : Prop :=
  ∀ fuel, parseWith fuel cs = none

/-! ## Parser lemmas: fuel monotonicity and determinism

A fuel-indexed result is stable: once the computation returns at some
fuel, every larger fuel returns the same thing.  This is what makes the
fueled embedding a function of the input alone, mirroring the fact that
the Rust parser is a pure function of the token stream. -/

/-- Pointwise refinement between two recursive references: whatever the
first returns, the second returns too. -/
def recLE (r1 r2 : List SpTok → PRes Expr) : Prop :=
  ∀ ts v, r1 ts = some v → r2 ts = some v

theorem orRes_mono {α : Type} {a1 a2 b1 b2 : PRes α}
    (ha : ∀ v, a1 = some v → a2 = some v) (hb : ∀ v, b1 = some v → b2 = some v) :
    ∀ v, orRes a1 b1 = some v → orRes a2 b2 = some v := by
  intro v h
  unfold orRes at h ⊢
  cases ha1 : a1 with
  | none => simp [ha1] at h
  | some x =>
    rw [ha x ha1]
    simp only [ha1] at h
    cases x with
    | ok w => exact h
    | error e1 =>
      cases hb1 : b1 with
      | none => simp [hb1] at h
      | some y =>
        rw [hb y hb1]
        simp only [hb1] at h
        exact h

theorem thenR_mono {α β : Type} {x1 x2 : PRes α} {f1 f2 : α → List SpTok → PRes β}
    (hx : ∀ v, x1 = some v → x2 = some v)
    (hf : ∀ a ts v, f1 a ts = some v → f2 a ts = some v) :
    ∀ v, thenR x1 f1 = some v → thenR x2 f2 = some v := by
  intro v h
  unfold thenR at h ⊢
  cases hx1 : x1 with
  | none => simp [hx1] at h
  | some w =>
    rw [hx w hx1]
    simp only [hx1] at h
    cases w with
    | error e => exact h
    | ok p =>
      obtain ⟨a, ts1⟩ := p
      exact hf a ts1 v h

theorem labelledR_mono {α : Type} {l : String} {x1 x2 : PRes α}
    (hx : ∀ v, x1 = some v → x2 = some v) :
    ∀ v, labelledR l x1 = some v → labelledR l x2 = some v := by
  intro v h
  unfold labelledR at h ⊢
  cases hx1 : x1 with
  | none => simp [hx1] at h
  | some w =>
    rw [hx w hx1]
    simp only [hx1] at h
    cases w with
    | error e => exact h
    | ok p => exact h

theorem absB_mono {eoi : Nat × Nat} {r1 r2 : List SpTok → PRes Expr} (h : recLE r1 r2) :
    ∀ ts v, absB eoi r1 ts = some v → absB eoi r2 ts = some v := by
  intro ts
  unfold absB
  exact labelledR_mono (thenR_mono (fun _ hv => hv) fun _ ts1 =>
    thenR_mono (labelledR_mono fun _ hv => hv) fun s ts2 =>
      thenR_mono (fun _ hv => hv) fun _ ts3 =>
        thenR_mono (h ts3) fun body ts4 _ hv => hv)

theorem parenB_mono {eoi : Nat × Nat} {r1 r2 : List SpTok → PRes Expr} (h : recLE r1 r2) :
    ∀ ts v, parenB eoi r1 ts = some v → parenB eoi r2 ts = some v := by
  intro ts
  unfold parenB
  exact thenR_mono (fun _ hv => hv) fun _ ts1 =>
    thenR_mono (h ts1) fun inner ts2 _ hv => hv

theorem appB_mono {eoi : Nat × Nat} {r1 r2 : List SpTok → PRes Expr} (h : recLE r1 r2) :
    ∀ ts v, appB eoi r1 ts = some v → appB eoi r2 ts = some v := by
  intro ts
  unfold appB
  exact labelledR_mono (thenR_mono (h ts) fun callee ts1 =>
    thenR_mono (h ts1) fun arg ts2 _ hv => hv)

theorem exprStep_mono {eoi : Nat × Nat} {r1 r2 : List SpTok → PRes Expr} (h : recLE r1 r2) :
    ∀ ts v, exprStep eoi r1 ts = some v → exprStep eoi r2 ts = some v := by
  intro ts
  unfold exprStep
  exact labelledR_mono (thenR_mono
    (orRes_mono (orRes_mono (orRes_mono (orRes_mono (absB_mono h ts) (parenB_mono h ts))
      (fun _ hv => hv)) (h ts)) (appB_mono h ts))
    fun e ts1 => thenR_mono (fun _ hv => hv) fun _ _ _ hv => hv)

theorem exprP_succ_le (eoi : Nat × Nat) : ∀ f, recLE (exprP eoi f) (exprP eoi (f + 1)) := by
  intro f
  induction f with
  | zero => intro ts v hv; simp [exprP] at hv
  | succ g ih => intro ts v hv; exact exprStep_mono ih ts v hv

theorem exprP_le (eoi : Nat × Nat) {f g : Nat} (hfg : f ≤ g) :
    recLE (exprP eoi f) (exprP eoi g) := by
  refine Nat.le_induction ?_ ?_ g hfg
  · exact fun ts v hv => hv
  · intro n hn ih ts v hv
    exact exprP_succ_le eoi n ts v (ih ts v hv)

theorem parseWith_mono {f g : Nat} (hfg : f ≤ g) {cs : List Char}
    {r : Except Simple Expr} (h : parseWith f cs = some r) : parseWith g cs = some r := by
  unfold parseWith at h ⊢
  cases he : exprP (utf8Len cs, utf8Len cs + 1) f (lex cs 0) with
  | none => rw [he] at h; simp at h
  | some x =>
    rw [he] at h
    rw [exprP_le _ hfg _ x he]
    exact h

/-- Whatever fuel makes the embedded parse return, the returned value is
the same: the parse result is a function of the input text alone. -/
theorem parse_det {cs : List Char} {r1 r2 : Except Simple Expr}
    (h1 : parseReturns cs r1) (h2 : parseReturns cs r2) : r1 = r2 := by
  obtain ⟨f1, hf1⟩ := h1
  obtain ⟨f2, hf2⟩ := h2
  have g1 := parseWith_mono (Nat.le_max_left f1 f2) hf1
  have g2 := parseWith_mono (Nat.le_max_right f1 f2) hf2
  rw [g1] at g2
  exact Option.some.inj g2

/-! ## Inversion: what a successful parse must look like -/

theorem thenR_ok {α β : Type} {x : PRes α} {f : α → List SpTok → PRes β}
    {v : β × List SpTok} (h : thenR x f = some (Except.ok v)) :
    ∃ a ts1, x = some (Except.ok (a, ts1)) ∧ f a ts1 = some (Except.ok v) := by
  unfold thenR at h
  cases hx : x with
  | none => simp [hx] at h
  | some w =>
    simp only [hx] at h
    cases w with
    | error e => simp at h
    | ok p =>
      obtain ⟨a, ts1⟩ := p
      exact ⟨a, ts1, rfl, h⟩

theorem labelledR_ok {α : Type} {l : String} {x : PRes α} {v : α × List SpTok}
    (h : labelledR l x = some (Except.ok v)) : x = some (Except.ok v) := by
  unfold labelledR at h
  cases hx : x with
  | none => simp [hx] at h
  | some w =>
    simp only [hx] at h
    cases w with
    | error e => simp at h
    | ok p => simp at h; rw [h]

theorem orRes_ok {α : Type} {a b : PRes α} {v : α × List SpTok}
    (h : orRes a b = some (Except.ok v)) :
    a = some (Except.ok v) ∨ (∃ e, a = some (Except.error e)) ∧ b = some (Except.ok v) := by
  unfold orRes at h
  cases ha : a with
  | none => simp [ha] at h
  | some x =>
    simp only [ha] at h
    cases x with
    | ok w => simp at h; exact Or.inl (by rw [h])
    | error e1 =>
      cases hb : b with
      | none => simp [hb] at h
      | some y =>
        simp only [hb] at h
        cases y with
        | ok w => simp at h; exact Or.inr ⟨⟨e1, rfl⟩, by rw [h]⟩
        | error e2 => simp at h

theorem justP_ok {tk : Token} {eoi : Nat × Nat} {ts : List SpTok} {t : Token}
    {rest : List SpTok} (h : justP tk eoi ts = Except.ok (t, rest)) :
    ∃ a b, ts = (tk, a, b) :: rest := by
  unfold justP at h
  cases ts with
  | nil => simp at h
  | cons y ts1 =>
    obtain ⟨t0, a, b⟩ := y
    by_cases hc : t0 = tk
    · subst hc
      simp at h
      exact ⟨a, b, by rw [h.2]⟩
    · simp [hc] at h

theorem identP_ok {eoi : Nat × Nat} {ts : List SpTok} {s : String} {rest : List SpTok}
    (h : identP eoi ts = Except.ok (s, rest)) :
    ∃ a b, ts = (Token.ident s, a, b) :: rest := by
  unfold identP at h
  cases ts with
  | nil => simp at h
  | cons y ts1 =>
    obtain ⟨t0, a, b⟩ := y
    cases t0 with
    | ident s0 =>
      simp at h
      exact ⟨a, b, by rw [h.1, h.2]⟩
    | lambda => simp at h
    | dot => simp at h
    | binding => simp at h
    | parenO => simp at h
    | parenC => simp at h
    | error => simp at h

theorem endP_ok {eoi : Nat × Nat} {ts : List SpTok} {v : Unit × List SpTok}
    (h : endP eoi ts = Except.ok v) : ts = [] := by
  unfold endP at h
  cases ts with
  | nil => rfl
  | cons y ts1 =>
    obtain ⟨t, a, b⟩ := y
    simp at h

/-- The language the embedded parser actually accepts: a single
identifier, or `λ`, one identifier, `.`, and an accepted body — the
`then_ignore(end())` inside the recursion rules everything else out. -/
inductive Accepts : List Token → Expr → Prop where
  | name (s : String) : Accepts [Token.ident s] (Expr.name s)
  | abstraction (s : String) (ts : List Token) (b : Expr) (hb : Accepts ts b) :
      Accepts (Token.lambda :: Token.ident s :: Token.dot :: ts) (Expr.abstraction s.toList b)

theorem Accepts.ne_nil {ts : List Token} {e : Expr} (h : Accepts ts e) : ts ≠ [] := by
  cases h <;> simp

/-- Characterization of success: whenever the fueled parser returns a
value, the rest of the stream is empty and the consumed tokens are in the
`Accepts` language.  In particular no `Application` node is ever built,
and a parenthesized group never parses (its inner `expr` insists on
reaching end-of-stream before the closing parenthesis). -/
theorem exprP_ok_accepts (eoi : Nat × Nat) :
    ∀ (f : Nat) (ts : List SpTok) (e : Expr) (rest : List SpTok),
      exprP eoi f ts = some (Except.ok (e, rest)) →
      rest = [] ∧ Accepts (ts.map fun x => x.1) e := by
  intro f
  induction f with
  | zero => intro ts e rest h; simp [exprP] at h
  | succ g ih =>
    intro ts e rest h
    replace h : exprStep eoi (exprP eoi g) ts = some (Except.ok (e, rest)) := h
    unfold exprStep at h
    replace h := labelledR_ok h
    obtain ⟨e0, ts1, halt, hrest⟩ := thenR_ok h
    obtain ⟨u, ts2, hend, hok⟩ := thenR_ok hrest
    have hts1 : ts1 = [] := endP_ok (Option.some.inj hend)
    have hok2 : e0 = e ∧ ts1 = rest := by
      unfold okR at hok
      simpa using hok
    obtain ⟨he0, hts1r⟩ := hok2
    have hrest0 : rest = [] := by rw [← hts1r, hts1]
    refine ⟨hrest0, ?_⟩
    rw [← he0]
    rw [hts1] at halt
    rcases orRes_ok halt with h4 | ⟨_, happ⟩
    · rcases orRes_ok h4 with h3 | ⟨_, hrec⟩
      · rcases orRes_ok h3 with h2 | ⟨_, hname⟩
        · rcases orRes_ok h2 with habs | ⟨_, hpar⟩
          · -- abstraction alternative
            replace habs := labelledR_ok habs
            obtain ⟨t0, tsA, hjl, hA⟩ := thenR_ok habs
            obtain ⟨s, tsB, hidl, hB⟩ := thenR_ok hA
            obtain ⟨t1, tsC, hjd, hC⟩ := thenR_ok hB
            obtain ⟨body, tsD, hbody, hD⟩ := thenR_ok hC
            obtain ⟨a1, b1, hts⟩ := justP_ok (Option.some.inj hjl)
            obtain ⟨a2, b2, htsA⟩ := identP_ok (Option.some.inj (labelledR_ok hidl))
            obtain ⟨a3, b3, htsB⟩ := justP_ok (Option.some.inj hjd)
            have hDE : Expr.abstraction s.toList body = e0 ∧ tsD = [] := by
              unfold okR at hD
              simpa using hD
            rw [hts, htsA, htsB]
            simp only [List.map_cons]
            rw [← hDE.1]
            exact Accepts.abstraction s _ body (ih tsC body tsD hbody).2
          · -- parenthesized alternative: impossible
            exfalso
            obtain ⟨t0, tsA, hjo, hA⟩ := thenR_ok hpar
            obtain ⟨inner, tsB, hinner, hB⟩ := thenR_ok hA
            obtain ⟨hB1, hB2⟩ := ih tsA inner tsB hinner
            rw [hB1] at hB
            simp [justP] at hB
        · -- plain name alternative
          replace hname := labelledR_ok hname
          obtain ⟨s, tsA, hid, hA⟩ := thenR_ok hname
          obtain ⟨a1, b1, hts⟩ := identP_ok (Option.some.inj hid)
          have hAE : Expr.name s = e0 ∧ tsA = [] := by
            unfold okR at hA
            simpa using hA
          rw [hts, hAE.2]
          simp only [List.map_cons, List.map_nil]
          rw [← hAE.1]
          exact Accepts.name s
      · -- bare recursive alternative
        exact (ih ts e0 [] hrec).2
    · -- application alternative: impossible
      exfalso
      replace happ := labelledR_ok happ
      obtain ⟨callee, tsA, hc, hA⟩ := thenR_ok happ
      obtain ⟨arg, tsB, harg, hB⟩ := thenR_ok hA
      obtain ⟨hA1, hA2⟩ := ih ts callee tsA hc
      rw [hA1] at harg
      have hacc := (ih [] arg tsB harg).2
      exact hacc.ne_nil rfl

/-! ## Lexer lemmas: the emitted spans tile the input -/

theorem utf8Size_one_of_le {c : Char} (h : c ≤ 'z') : c.utf8Size = 1 := by
  have h1 : c.val.toNat ≤ 122 := h
  unfold Char.utf8Size
  dsimp only
  split
  · rfl
  · rename_i hc
    exfalso
    apply hc
    show c.val.toNat ≤ _
    exact le_trans h1 (by decide)

theorem size_of_ws {c : Char} (h : isWhitespace c = true) : c.utf8Size = 1 := by
  simp [isWhitespace] at h
  rcases h with ((h | h) | h) | h <;> subst h <;> decide

theorem size_of_lower {c : Char} (h : isLowerAZ c = true) : c.utf8Size = 1 := by
  simp [isLowerAZ] at h
  exact utf8Size_one_of_le h.2

theorem size_of_upper {c : Char} (h : isUpperAZ c = true) : c.utf8Size = 1 := by
  simp [isUpperAZ] at h
  exact utf8Size_one_of_le (le_trans h.2 (by decide))

theorem size_of_digit {c : Char} (h : isDigit09 c = true) : c.utf8Size = 1 := by
  simp [isDigit09] at h
  exact utf8Size_one_of_le (le_trans h.2 (by decide))

@[simp] theorem utf8Len_nil : utf8Len [] = 0 := rfl

@[simp] theorem utf8Len_cons (c : Char) (cs : List Char) :
    utf8Len (c :: cs) = c.utf8Size + utf8Len cs := by
  simp [utf8Len]

theorem utf8Len_append (a b : List Char) : utf8Len (a ++ b) = utf8Len a + utf8Len b := by
  simp [utf8Len]

theorem utf8Len_of_ascii {cs : List Char} (h : ∀ c ∈ cs, c.utf8Size = 1) :
    utf8Len cs = cs.length := by
  induction cs with
  | nil => rfl
  | cons c cs ih =>
    rw [utf8Len_cons, h c (List.mem_cons_self c cs),
      ih fun x hx => h x (List.mem_cons_of_mem c hx)]
    simp [Nat.add_comm]

/-- The spans of a chunk list exactly tile the half-open interval from
`a` to `b`: each chunk starts where the previous one ended, is nonempty,
and the last one ends at `b`. -/
def tiles : Nat → Nat → List (Option Token × Nat × Nat) → Prop
  | a, b, [] => a = b
  | a, b, x :: l => x.2.1 = a ∧ a < x.2.2 ∧ tiles x.2.2 b l

theorem tiles_le {b : Nat} : ∀ {l : List (Option Token × Nat × Nat)} {a : Nat},
    tiles a b l → a ≤ b := by
  intro l
  induction l with
  | nil => intro a h; exact le_of_eq h
  | cons x l ih => intro a h; exact le_trans (le_of_lt h.2.1) (ih h.2.2)

theorem tiles_mem {b : Nat} : ∀ {l : List (Option Token × Nat × Nat)} {a : Nat}
    {x : Option Token × Nat × Nat}, tiles a b l → x ∈ l →
    a ≤ x.2.1 ∧ x.2.1 < x.2.2 ∧ x.2.2 ≤ b := by
  intro l
  induction l with
  | nil => intro a x _ hx; cases hx
  | cons y l ih =>
    intro a x ht hx
    rcases List.mem_cons.mp hx with h | h
    · subst h
      exact ⟨le_of_eq ht.1.symm, ht.1.symm ▸ ht.2.1, tiles_le ht.2.2⟩
    · have hr := ih ht.2.2 h
      exact ⟨le_trans (le_of_lt ht.2.1) hr.1, hr.2⟩

theorem tiles_pairwise {b : Nat} : ∀ {l : List (Option Token × Nat × Nat)} {a : Nat},
    tiles a b l → l.Pairwise fun x y => x.2.2 ≤ y.2.1 := by
  intro l
  induction l with
  | nil => intro a _; exact List.Pairwise.nil
  | cons y l ih =>
    intro a ht
    exact List.Pairwise.cons (fun z hz => (tiles_mem ht.2.2 hz).1) (ih ht.2.2)

theorem tiles_cover {b : Nat} : ∀ {l : List (Option Token × Nat × Nat)} {a i : Nat},
    tiles a b l → a ≤ i → i < b → ∃ x ∈ l, x.2.1 ≤ i ∧ i < x.2.2 := by
  intro l
  induction l with
  | nil =>
    intro a i ht h1 h2
    exact absurd h2 (not_lt.mpr (le_of_eq ht.symm |>.trans h1))
  | cons y l ih =>
    intro a i ht h1 h2
    by_cases hc : i < y.2.2
    · exact ⟨y, List.mem_cons_self y l, ht.1 ▸ h1, hc⟩
    · obtain ⟨x, hx, hcov⟩ := ih ht.2.2 (not_lt.mp hc) h2
      exact ⟨x, List.mem_cons_of_mem y hx, hcov⟩

theorem lexChunksF_tiles : ∀ (n : Nat) (cs : List Char), cs.length ≤ n →
    ∀ p, tiles p (p + utf8Len cs) (lexChunksF n cs p) := by
  intro n
  induction n with
  | zero =>
    intro cs hlen p
    have hnil : cs = [] := List.length_eq_zero.mp (Nat.le_zero.mp hlen)
    subst hnil
    show p = p + utf8Len []
    simp
  | succ n ih =>
    intro cs hlen p
    match cs with
    | [] =>
      show p = p + utf8Len []
      simp
    | c :: cs' =>
      have hlen' : cs'.length ≤ n := by simp at hlen; omega
      show tiles p (p + utf8Len (c :: cs'))
        (lexChunksF (n + 1) (c :: cs') p)
      rw [lexChunksF]
      by_cases h1 : isWhitespace c = true
      · simp only [h1, if_true]
        refine ⟨rfl, show p < p + 1 by omega, ?_⟩
        show tiles (p + 1) _ _
        rw [utf8Len_cons, size_of_ws h1,
          show p + (1 + utf8Len cs') = (p + 1) + utf8Len cs' by omega]
        exact ih cs' hlen' (p + 1)
      · simp only [h1, if_false]
        by_cases h2 : c = 'λ'
        · simp only [h2, if_true]
          refine ⟨rfl, show p < p + 2 by omega, ?_⟩
          show tiles (p + 2) _ _
          rw [utf8Len_cons, show Char.utf8Size 'λ' = 2 from rfl,
            show p + (2 + utf8Len cs') = (p + 2) + utf8Len cs' by omega]
          exact ih cs' hlen' (p + 2)
        · simp only [h2, if_false]
          by_cases h3 : c = '.'
          · simp only [h3, if_true]
            refine ⟨rfl, show p < p + 1 by omega, ?_⟩
            show tiles (p + 1) _ _
            rw [utf8Len_cons, show Char.utf8Size '.' = 1 from rfl,
              show p + (1 + utf8Len cs') = (p + 1) + utf8Len cs' by omega]
            exact ih cs' hlen' (p + 1)
          · simp only [h3, if_false]
            by_cases h4 : c = ':'
            · simp only [h4, if_true]
              by_cases h4b : cs'.head? = some '='
              · simp only [h4b, if_true]
                obtain ⟨t, rfl⟩ : ∃ t, cs' = '=' :: t := by
                  cases cs' with
                  | nil => simp at h4b
                  | cons a t =>
                    simp at h4b
                    exact ⟨t, by rw [h4b]⟩
                refine ⟨rfl, show p < p + 2 by omega, ?_⟩
                show tiles (p + 2) _ (lexChunksF n t (p + 2))
                rw [utf8Len_cons, utf8Len_cons, show Char.utf8Size ':' = 1 from rfl,
                  show Char.utf8Size '=' = 1 from rfl,
                  show p + (1 + (1 + utf8Len t)) = (p + 2) + utf8Len t by omega]
                exact ih t (by simp at hlen'; omega) (p + 2)
              · simp only [h4b, if_false]
                refine ⟨rfl, show p < p + 1 by omega, ?_⟩
                show tiles (p + 1) _ _
                rw [utf8Len_cons, show Char.utf8Size ':' = 1 from rfl,
                  show p + (1 + utf8Len cs') = (p + 1) + utf8Len cs' by omega]
                exact ih cs' hlen' (p + 1)
            · simp only [h4, if_false]
              by_cases h5 : c = '('
              · simp only [h5, if_true]
                refine ⟨rfl, show p < p + 1 by omega, ?_⟩
                show tiles (p + 1) _ _
                rw [utf8Len_cons, show Char.utf8Size '(' = 1 from rfl,
                  show p + (1 + utf8Len cs') = (p + 1) + utf8Len cs' by omega]
                exact ih cs' hlen' (p + 1)
              · simp only [h5, if_false]
                by_cases h6 : c = ')'
                · simp only [h6, if_true]
                  refine ⟨rfl, show p < p + 1 by omega, ?_⟩
                  show tiles (p + 1) _ _
                  rw [utf8Len_cons, show Char.utf8Size ')' = 1 from rfl,
                    show p + (1 + utf8Len cs') = (p + 1) + utf8Len cs' by omega]
                  exact ih cs' hlen' (p + 1)
                · simp only [h6, if_false]
                  by_cases h7 : isLowerAZ c = true
                  · simp only [h7, if_true]
                    refine ⟨rfl, show p < p + 1 by omega, ?_⟩
                    show tiles (p + 1) _ _
                    rw [utf8Len_cons, size_of_lower h7,
                      show p + (1 + utf8Len cs') = (p + 1) + utf8Len cs' by omega]
                    exact ih cs' hlen' (p + 1)
                  · simp only [h7, if_false]
                    by_cases h8 : isUpperAZ c = true
                    · simp only [h8, if_true]
                      refine ⟨rfl,
                        show p < p + (1 + (cs'.takeWhile isUpperAZ).length +
                          ((cs'.dropWhile isUpperAZ).takeWhile isDigit09).length) by omega, ?_⟩
                      show tiles (p + (1 + (cs'.takeWhile isUpperAZ).length +
                          ((cs'.dropWhile isUpperAZ).takeWhile isDigit09).length)) _ _
                      have hus : utf8Len (cs'.takeWhile isUpperAZ) =
                          (cs'.takeWhile isUpperAZ).length :=
                        utf8Len_of_ascii fun x hx => size_of_upper (List.mem_takeWhile_imp hx)
                      have hds : utf8Len ((cs'.dropWhile isUpperAZ).takeWhile isDigit09) =
                          ((cs'.dropWhile isUpperAZ).takeWhile isDigit09).length :=
                        utf8Len_of_ascii fun x hx => size_of_digit (List.mem_takeWhile_imp hx)
                      have harith : p + utf8Len (c :: cs') =
                          (p + (1 + (cs'.takeWhile isUpperAZ).length +
                            ((cs'.dropWhile isUpperAZ).takeWhile isDigit09).length)) +
                          utf8Len ((cs'.dropWhile isUpperAZ).dropWhile isDigit09) := by
                        rw [utf8Len_cons, size_of_upper h8]
                        conv_lhs => rw [← List.takeWhile_append_dropWhile isUpperAZ cs',
                          utf8Len_append]
                        conv_lhs => rw [← List.takeWhile_append_dropWhile isDigit09
                          (cs'.dropWhile isUpperAZ), utf8Len_append]
                        rw [hus, hds]
                        omega
                      rw [harith]
                      refine ih ((cs'.dropWhile isUpperAZ).dropWhile isDigit09) ?_ _
                      calc ((cs'.dropWhile isUpperAZ).dropWhile isDigit09).length
                          ≤ (cs'.dropWhile isUpperAZ).length :=
                            (List.dropWhile_sublist _).length_le
                        _ ≤ cs'.length := (List.dropWhile_sublist _).length_le
                        _ ≤ n := hlen'
                    · simp only [h8, if_false]
                      refine ⟨rfl,
                        show p < p + c.utf8Size from by have := c.utf8Size_pos; omega, ?_⟩
                      show tiles (p + c.utf8Size) _ _
                      rw [utf8Len_cons,
                        show p + (c.utf8Size + utf8Len cs') = (p + c.utf8Size) + utf8Len cs'
                          by omega]
                      exact ih cs' hlen' (p + c.utf8Size)


/-- The spans emitted by one full scan tile the byte range of the input. -/
theorem lexChunks_tiles (cs : List Char) (p : Nat) :
    tiles p (p + utf8Len cs) (lexChunks cs p) :=
  lexChunksF_tiles cs.length cs le_rfl p

/-! ## Identifier tokens are never empty -/

@[simp] theorem lexChunksF_nil : ∀ (f p : Nat), lexChunksF f [] p = [] := by
  intro f p
  cases f <;> rfl

theorem lexChunksF_ident : ∀ (n : Nat) (cs : List Char) (p : Nat)
    (x : Option Token × Nat × Nat), x ∈ lexChunksF n cs p →
    ∀ s, x.1 = some (Token.ident s) → s.toList ≠ [] := by
  intro n
  induction n with
  | zero => intro cs p x hx; simp [lexChunksF] at hx
  | succ g ih =>
    intro cs p x hx s hs
    match cs with
    | [] => simp at hx
    | c :: cs1 =>
      rw [lexChunksF] at hx
      split at hx
      · rcases List.mem_cons.mp hx with h | h
        · rw [h] at hs; simp at hs
        · exact ih _ _ _ h s hs
      · split at hx
        · rcases List.mem_cons.mp hx with h | h
          · rw [h] at hs; simp at hs
          · exact ih _ _ _ h s hs
        · split at hx
          · rcases List.mem_cons.mp hx with h | h
            · rw [h] at hs; simp at hs
            · exact ih _ _ _ h s hs
          · split at hx
            · split at hx
              · rcases List.mem_cons.mp hx with h | h
                · rw [h] at hs; simp at hs
                · exact ih _ _ _ h s hs
              · rcases List.mem_cons.mp hx with h | h
                · rw [h] at hs; simp at hs
                · exact ih _ _ _ h s hs
            · split at hx
              · rcases List.mem_cons.mp hx with h | h
                · rw [h] at hs; simp at hs
                · exact ih _ _ _ h s hs
              · split at hx
                · rcases List.mem_cons.mp hx with h | h
                  · rw [h] at hs; simp at hs
                  · exact ih _ _ _ h s hs
                · split at hx
                  · rcases List.mem_cons.mp hx with h | h
                    · rw [h] at hs
                      simp at hs
                      rw [← hs]
                      simp
                    · exact ih _ _ _ h s hs
                  · split at hx
                    · rcases List.mem_cons.mp hx with h | h
                      · rw [h] at hs
                        simp at hs
                        rw [← hs]
                        simp
                      · exact ih _ _ _ h s hs
                    · rcases List.mem_cons.mp hx with h | h
                      · rw [h] at hs; simp at hs
                      · exact ih _ _ _ h s hs

theorem lex_ident_ne {cs : List Char} {p : Nat} {t : Token × Nat × Nat}
    (ht : t ∈ lex cs p) : ∀ s, t.1 = Token.ident s → s.toList ≠ [] := by
  intro s hs
  obtain ⟨a, ha, hfa⟩ := List.mem_filterMap.mp ht
  cases ha1 : a.1 with
  | none => rw [ha1] at hfa; simp at hfa
  | some tk =>
    rw [ha1] at hfa
    simp at hfa
    have htk : tk = Token.ident s := by rw [← hs, ← hfa]
    refine lexChunksF_ident cs.length cs p a ha s ?_
    rw [ha1, htk]

/-! ## Abstraction parameters come from a single identifier token -/

/-- Every `Abstraction` node of the expression carries, as `params`,
exactly the character sequence of some identifier token of the input, and
that sequence is never empty. -/
def ParamsFromIdents (toks : List Token) : Expr → Prop
  | Expr.name _ => True
  | Expr.application c a => ParamsFromIdents toks c ∧ ParamsFromIdents toks a
  | Expr.abstraction ps b =>
      (∃ s, Token.ident s ∈ toks ∧ ps = s.toList ∧ ps ≠ []) ∧ ParamsFromIdents toks b

theorem accepts_params {ts : List Token} {e : Expr} (h : Accepts ts e) :
    ∀ T : List Token, (∀ x ∈ ts, x ∈ T) →
      (∀ s, Token.ident s ∈ T → s.toList ≠ []) → ParamsFromIdents T e := by
  induction h with
  | name s => intro T hsub hne; trivial
  | abstraction s ts b hb ih =>
    intro T hsub hne
    have hmem : Token.ident s ∈ T := hsub _ (by simp)
    refine ⟨⟨s, hmem, rfl, hne s hmem⟩, ?_⟩
    exact ih T (fun x hx => hsub x (by simp [hx])) hne

/-! ## Concrete lexer evaluations for identifier-only inputs -/

theorem lower_not_special {c : Char} (h : isLowerAZ c = true) :
    isWhitespace c = false ∧ c ≠ 'λ' ∧ c ≠ '.' ∧ c ≠ ':' ∧ c ≠ '(' ∧ c ≠ ')' := by
  simp [isLowerAZ] at h
  have h1 : 97 ≤ c.val.toNat := h.1
  have h2 : c.val.toNat ≤ 122 := h.2
  refine ⟨?_, ?_, ?_, ?_, ?_, ?_⟩
  · cases hq : isWhitespace c
    · rfl
    · exfalso
      simp [isWhitespace] at hq
      rcases hq with ((e | e) | e) | e <;> subst e <;> exact absurd h1 (by decide)
  · intro he; subst he; exact absurd h2 (by decide)
  · intro he; subst he; exact absurd h1 (by decide)
  · intro he; subst he; exact absurd h1 (by decide)
  · intro he; subst he; exact absurd h1 (by decide)
  · intro he; subst he; exact absurd h1 (by decide)

theorem upper_not_special {c : Char} (h : isUpperAZ c = true) :
    isWhitespace c = false ∧ c ≠ 'λ' ∧ c ≠ '.' ∧ c ≠ ':' ∧ c ≠ '(' ∧ c ≠ ')' ∧
    isLowerAZ c = false := by
  simp [isUpperAZ] at h
  have h1 : 65 ≤ c.val.toNat := h.1
  have h2 : c.val.toNat ≤ 90 := h.2
  refine ⟨?_, ?_, ?_, ?_, ?_, ?_, ?_⟩
  · cases hq : isWhitespace c
    · rfl
    · exfalso
      simp [isWhitespace] at hq
      rcases hq with ((e | e) | e) | e <;> subst e <;> exact absurd h1 (by decide)
  · intro he; subst he; exact absurd h2 (by decide)
  · intro he; subst he; exact absurd h1 (by decide)
  · intro he; subst he; exact absurd h1 (by decide)
  · intro he; subst he; exact absurd h1 (by decide)
  · intro he; subst he; exact absurd h1 (by decide)
  · cases hq : isLowerAZ c
    · rfl
    · exfalso
      simp [isLowerAZ] at hq
      have h3 : 97 ≤ c.val.toNat := hq.1
      omega

theorem lex_single_lower {c : Char} (h : isLowerAZ c = true) :
    lex [c] 0 = [(Token.ident (String.mk [c]), 0, 1)] := by
  obtain ⟨hw, h2, h3, h4, h5, h6⟩ := lower_not_special h
  unfold lex lexChunks
  simp only [List.length_cons, List.length_nil]
  rw [lexChunksF]
  simp [hw, h2, h3, h4, h5, h6, h]

theorem lex_upper_run {c : Char} {cs : List Char} (hc : isUpperAZ c = true)
    (hcs : ∀ x ∈ cs, isUpperAZ x = true) :
    lex (c :: cs) 0 = [(Token.ident (String.mk (c :: cs)), 0, 1 + cs.length)] := by
  obtain ⟨hw, h2, h3, h4, h5, h6, h7⟩ := upper_not_special hc
  unfold lex lexChunks
  simp only [List.length_cons]
  rw [lexChunksF]
  simp only [hw, h2, h3, h4, h5, h6, h7, hc, if_false, if_true, Bool.false_eq_true]
  rw [List.takeWhile_eq_self_iff.mpr hcs, List.dropWhile_eq_nil_iff.mpr hcs]
  simp

/-- A single identifier token parses to a `Name`, at any fuel. -/
theorem exprP_name (eoi : Nat × Nat) (s : String) (a b : Nat) (f : Nat) :
    exprP eoi (f + 1) [(Token.ident s, a, b)] = some (Except.ok (Expr.name s, [])) := rfl

/-! ## Divergence: when the first three alternatives fail and the
recursive alternative is reached, the parser re-enters itself at the same
position and never returns -/

theorem exprStep_none {eoi : Nat × Nat} {rp : List SpTok → PRes Expr} {ts : List SpTok}
    (ha : absB eoi rp ts = none ∨ ∃ e, absB eoi rp ts = some (Except.error e))
    (hp : parenB eoi rp ts = none ∨ ∃ e, parenB eoi rp ts = some (Except.error e))
    (hn : ∃ e, nameB eoi ts = some (Except.error e))
    (hr : rp ts = none) :
    exprStep eoi rp ts = none := by
  obtain ⟨en, hnn⟩ := hn
  rcases ha with ha | ⟨ea, ha⟩ <;> rcases hp with hp | ⟨ep, hp⟩ <;>
    simp [exprStep, orRes, thenR, labelledR, ha, hp, hnn, hr]

/-! ## The identifier language, both directions

For a source string made of ASCII letters only, the parse can only
succeed when the lexer emits a single identifier token: every token of
such an input is an identifier, and the accepted language admits a
lone identifier but nothing headed by `λ`.  A single token arises
exactly for a one-letter lowercase input or an all-uppercase input. -/

/-- An ASCII letter of either case. -/
def isLetter (c : Char) : Bool := isLowerAZ c || isUpperAZ c

theorem letter_not_special {c : Char} (h : isLetter c = true) :
    isWhitespace c = false ∧ c ≠ 'λ' ∧ c ≠ '.' ∧ c ≠ ':' ∧ c ≠ '(' ∧ c ≠ ')' := by
  have h2 : isLowerAZ c = true ∨ isUpperAZ c = true := by
    simpa [isLetter] using h
  rcases h2 with h2 | h2
  · exact lower_not_special h2
  · obtain ⟨q1, q2, q3, q4, q5, q6, _⟩ := upper_not_special h2
    exact ⟨q1, q2, q3, q4, q5, q6⟩

theorem letter_not_digit {c : Char} (h : isLetter c = true) : isDigit09 c = false := by
  simp [isLetter, isLowerAZ, isUpperAZ] at h
  cases hq : isDigit09 c
  · rfl
  · exfalso
    simp [isDigit09] at hq
    have hq1 : 48 ≤ c.val.toNat := hq.1
    have hq2 : c.val.toNat ≤ 57 := hq.2
    rcases h with h | h
    · have h3 : 97 ≤ c.val.toNat := h.1
      omega
    · have h3 : 65 ≤ c.val.toNat := h.1
      omega

/-- On a letters-only input every chunk the lexer emits is an identifier
token (in particular: no `λ`, no whitespace skip, no error chunk). -/
theorem lexChunksF_letters_ident : ∀ (n : Nat) (cs : List Char) (p : Nat), cs.length ≤ n →
    (∀ c ∈ cs, isLetter c = true) →
    ∀ x ∈ lexChunksF n cs p, ∃ s, x.1 = some (Token.ident s) := by
  intro n
  induction n with
  | zero => intro cs p hlen hlet x hx; simp [lexChunksF] at hx
  | succ g ih =>
    intro cs p hlen hlet x hx
    match cs with
    | [] => simp at hx
    | c :: cs1 =>
      have hlen1 : cs1.length ≤ g := by simp at hlen; omega
      have hc := hlet c (List.mem_cons_self c cs1)
      obtain ⟨hw, hb2, hb3, hb4, hb5, hb6⟩ := letter_not_special hc
      rw [lexChunksF, if_neg (by simp [hw]), if_neg hb2, if_neg hb3, if_neg hb4,
        if_neg hb5, if_neg hb6] at hx
      by_cases hl : isLowerAZ c = true
      · rw [if_pos hl] at hx
        rcases List.mem_cons.mp hx with h | h
        · exact ⟨String.mk [c], by rw [h]⟩
        · exact ih cs1 (p + 1) hlen1 (fun d hd => hlet d (List.mem_cons_of_mem c hd)) x h
      · have hu : isUpperAZ c = true := by
          have h0 := hc
          simp [isLetter] at h0
          rcases h0 with h0 | h0
          · exact absurd h0 hl
          · exact h0
        rw [if_neg hl, if_pos hu] at hx
        rcases List.mem_cons.mp hx with h | h
        · exact ⟨_, by rw [h]⟩
        · refine ih _ _ ?_ ?_ x h
          · calc ((cs1.dropWhile isUpperAZ).dropWhile isDigit09).length
                ≤ (cs1.dropWhile isUpperAZ).length := (List.dropWhile_sublist _).length_le
              _ ≤ cs1.length := (List.dropWhile_sublist _).length_le
              _ ≤ g := hlen1
          · intro d hd
            exact hlet d (List.mem_cons_of_mem c
              ((List.dropWhile_sublist isUpperAZ).subset
                ((List.dropWhile_sublist isDigit09).subset hd)))

/-- A language word whose tokens are all identifiers is a lone
identifier: the abstraction form starts with `λ`. -/
theorem accepts_all_idents {toks : List Token} {e : Expr} (h : Accepts toks e)
    (hid : ∀ t ∈ toks, ∃ s, t = Token.ident s) : ∃ s, toks = [Token.ident s] := by
  cases h with
  | name s => exact ⟨s, rfl⟩
  | abstraction s ts b hb =>
    obtain ⟨s0, hs0⟩ := hid Token.lambda (by simp)
    exact absurd hs0 (by simp)

/-- A nonempty letters-only input always produces a first chunk, and it
is an identifier token. -/
theorem lexChunksF_letters_head : ∀ (n : Nat) (cs : List Char) (p : Nat), cs ≠ [] →
    cs.length ≤ n → (∀ c ∈ cs, isLetter c = true) →
    ∃ s q r l, lexChunksF n cs p = (some (Token.ident s), q, r) :: l := by
  intro n cs p hne hlen hlet
  match n, cs with
  | _, [] => exact absurd rfl hne
  | 0, c :: cs1 => simp at hlen
  | g + 1, c :: cs1 =>
    have hc := hlet c (List.mem_cons_self c cs1)
    obtain ⟨hw, hb2, hb3, hb4, hb5, hb6⟩ := letter_not_special hc
    rw [lexChunksF, if_neg (by simp [hw]), if_neg hb2, if_neg hb3, if_neg hb4,
      if_neg hb5, if_neg hb6]
    by_cases hl : isLowerAZ c = true
    · rw [if_pos hl]
      exact ⟨_, _, _, _, rfl⟩
    · have hu : isUpperAZ c = true := by
        have h0 := hc
        simp [isLetter] at h0
        rcases h0 with h0 | h0
        · exact absurd h0 hl
        · exact h0
      rw [if_neg hl, if_pos hu]
      exact ⟨_, _, _, _, rfl⟩

/-- The only-if half of the identifier-language characterization: a
letters-only input that parses successfully (to anything) is a single
lowercase letter or an all-uppercase run. -/
theorem parse_letters_shape (cs : List Char) (f : Nat) (e : Expr)
    (hlet : ∀ c ∈ cs, isLetter c = true)
    (h : parseWith f cs = some (Except.ok e)) :
    (∃ c, cs = [c] ∧ isLowerAZ c = true) ∨ (cs ≠ [] ∧ ∀ c ∈ cs, isUpperAZ c = true) := by
  have hone : (lex cs 0).length = 1 := by
    unfold parseWith at h
    cases he : exprP (utf8Len cs, utf8Len cs + 1) f (lex cs 0) with
    | none => rw [he] at h; simp at h
    | some x =>
      rw [he] at h
      cases x with
      | error e1 => simp at h
      | ok p =>
        obtain ⟨e0, rest⟩ := p
        obtain ⟨hrest, hacc⟩ := exprP_ok_accepts _ f _ e0 rest he
        have hid : ∀ t ∈ (lex cs 0).map fun x => x.1, ∃ s, t = Token.ident s := by
          intro t ht
          obtain ⟨y, hy, hyt⟩ := List.mem_map.mp ht
          obtain ⟨a, ha, hfa⟩ := List.mem_filterMap.mp hy
          obtain ⟨s, hs⟩ := lexChunksF_letters_ident cs.length cs 0 le_rfl hlet a ha
          refine ⟨s, ?_⟩
          cases ha1 : a.1 with
          | none => rw [ha1] at hfa; simp at hfa
          | some tk =>
            rw [ha1] at hfa
            simp at hfa
            rw [ha1] at hs
            have htk : tk = Token.ident s := by simpa using hs
            rw [← hyt, ← hfa, htk]
        obtain ⟨s, hsingle⟩ := accepts_all_idents hacc hid
        have hlength := congrArg List.length hsingle
        simpa using hlength
  cases cs with
  | nil =>
    exfalso
    simp [lex, lexChunks] at hone
  | cons c cs1 =>
    have hc := hlet c (List.mem_cons_self c cs1)
    obtain ⟨hw, hb2, hb3, hb4, hb5, hb6⟩ := letter_not_special hc
    by_cases hl : isLowerAZ c = true
    · left
      refine ⟨c, ?_, hl⟩
      cases cs1 with
      | nil => rfl
      | cons d cs2 =>
        exfalso
        unfold lex lexChunks at hone
        rw [show (c :: d :: cs2).length = (d :: cs2).length + 1 from rfl, lexChunksF,
          if_neg (by simp [hw]), if_neg hb2, if_neg hb3, if_neg hb4, if_neg hb5,
          if_neg hb6, if_pos hl] at hone
        obtain ⟨s, q, r, l, hhead⟩ := lexChunksF_letters_head (d :: cs2).length (d :: cs2) 1
          (by simp) le_rfl (fun x hx => hlet x (List.mem_cons_of_mem c hx))
        rw [hhead] at hone
        simp at hone
    · have hu : isUpperAZ c = true := by
        have h0 := hc
        simp [isLetter] at h0
        rcases h0 with h0 | h0
        · exact absurd h0 hl
        · exact h0
      by_cases hall : ∀ x ∈ cs1, isUpperAZ x = true
      · right
        refine ⟨by simp, fun x hx => ?_⟩
        rcases List.mem_cons.mp hx with h1 | h1
        · rw [h1]; exact hu
        · exact hall x h1
      · exfalso
        have hr1 : cs1.dropWhile isUpperAZ ≠ [] := by
          intro hnil
          exact hall (List.dropWhile_eq_nil_iff.mp hnil)
        have hlet1 : ∀ x ∈ cs1.dropWhile isUpperAZ, isLetter x = true :=
          fun x hx => hlet x (List.mem_cons_of_mem c ((List.dropWhile_sublist _).subset hx))
        have hr2 : (cs1.dropWhile isUpperAZ).dropWhile isDigit09 = cs1.dropWhile isUpperAZ := by
          cases hd : cs1.dropWhile isUpperAZ with
          | nil => rfl
          | cons d r =>
            have hdig : ¬ isDigit09 d = true := by
              rw [letter_not_digit (hlet1 d (by rw [hd]; simp))]
              simp
            exact List.dropWhile_cons_of_neg hdig
        unfold lex lexChunks at hone
        rw [show (c :: cs1).length = cs1.length + 1 from rfl, lexChunksF,
          if_neg (by simp [hw]), if_neg hb2, if_neg hb3, if_neg hb4, if_neg hb5,
          if_neg hb6, if_neg hl, if_pos hu] at hone
        dsimp only at hone
        rw [hr2] at hone
        obtain ⟨s, q, r, l, hhead⟩ := lexChunksF_letters_head cs1.length
          (cs1.dropWhile isUpperAZ) (0 + (1 + (cs1.takeWhile isUpperAZ).length +
            ((cs1.dropWhile isUpperAZ).takeWhile isDigit09).length)) hr1
          (List.dropWhile_sublist _).length_le hlet1
        rw [hhead] at hone
        simp at hone

/-! ## Claims -/

/-- C1: the spec claims `a b c` parses to the left-nested application
`Application(Application(Name a, Name b), Name c)`.  The code does not:
the ordered choice commits to the leading `Name` atom, the `end()` inside
the recursive parser then rejects the second identifier, and the parse
returns a single unexpected-token error (found `b`, expected end of
input).  The `application` alternative is unreachable, so the claimed AST
is never produced. -/
theorem c1_application_not_built :
    parseReturns ("a b c".toList)
      (Except.error ⟨(2, 3), [none], some (Token.ident "b"), SimpleReason.unexpected,
        some "expression"⟩) ∧
    ¬ parseReturns ("a b c".toList)
      (Except.ok (Expr.application (Expr.application (Expr.name "a") (Expr.name "b"))
        (Expr.name "c"))) := by
  have herr : parseReturns ("a b c".toList)
      (Except.error ⟨(2, 3), [none], some (Token.ident "b"), SimpleReason.unexpected,
        some "expression"⟩) := ⟨2, by decide⟩
  refine ⟨herr, ?_⟩
  intro hok
  exact absurd (parse_det herr hok) (by decide)

/-- C2 (counterexample): the spec claims every string of one or more
ASCII letters parses to a `Name` holding that text.  The lowercase rule
is `[a-z]` — one character per token — so `"ab"` lexes as two tokens and
the parse fails with an unexpected-token error instead of producing
`Name "ab"`. -/
theorem c2_counterexample :
    parseReturns ("ab".toList)
      (Except.error ⟨(1, 2), [none], some (Token.ident "b"), SimpleReason.unexpected,
        some "expression"⟩) ∧
    ¬ parseReturns ("ab".toList) (Except.ok (Expr.name "ab")) := by
  have herr : parseReturns ("ab".toList)
      (Except.error ⟨(1, 2), [none], some (Token.ident "b"), SimpleReason.unexpected,
        some "expression"⟩) := ⟨2, by decide⟩
  refine ⟨herr, ?_⟩
  intro hok
  exact absurd (parse_det herr hok) (by decide)

/-- C2 (amended): the identifier language the code actually accepts as a
whole-input `Name`, in both directions.  If the input is a single
lowercase letter (the `[a-z]` rule matches exactly one character) or a
run of one-or-more uppercase letters (the `[A-Z]+[0-9]*` rule, maximal
munch), the parse succeeds with a `Name` holding exactly the input text;
and conversely, a letters-only input that parses successfully at all has
one of those two shapes — so every other letters-only string, such as a
multi-character lowercase one, fails to parse. -/
theorem c2_ident_language :
    (∀ c : Char, isLowerAZ c = true → ∀ f : Nat,
      parseWith (f + 1) [c] = some (Except.ok (Expr.name (String.mk [c])))) ∧
    (∀ (c : Char) (cs : List Char), isUpperAZ c = true →
      (∀ x ∈ cs, isUpperAZ x = true) → ∀ f : Nat,
        parseWith (f + 1) (c :: cs) = some (Except.ok (Expr.name (String.mk (c :: cs))))) ∧
    (∀ (cs : List Char) (f : Nat) (e : Expr), (∀ c ∈ cs, isLetter c = true) →
      parseWith f cs = some (Except.ok e) →
      (∃ c, cs = [c] ∧ isLowerAZ c = true) ∨ (cs ≠ [] ∧ ∀ c ∈ cs, isUpperAZ c = true)) := by
  refine ⟨?_, ?_, parse_letters_shape⟩
  · intro c h f
    unfold parseWith
    rw [lex_single_lower h, exprP_name]
  · intro c cs hc hcs f
    unfold parseWith
    rw [lex_upper_run hc hcs, exprP_name]

/-- Witness for C2 (amended): the success halves at `"x"` and `"AB"`,
and the only-if half applied at the successful input `"AB"`. -/
theorem c2_ident_language_witness :
    (parseWith 1 ['x'] = some (Except.ok (Expr.name (String.mk ['x'])))) ∧
    (parseWith 1 ['A', 'B'] = some (Except.ok (Expr.name (String.mk ['A', 'B'])))) ∧
    ((∃ c, ['A', 'B'] = [c] ∧ isLowerAZ c = true) ∨
      (['A', 'B'] ≠ [] ∧ ∀ c ∈ ['A', 'B'], isUpperAZ c = true)) :=
  ⟨c2_ident_language.1 'x' (by decide) 0,
   c2_ident_language.2.1 'A' ['B'] (by decide) (by decide) 0,
   c2_ident_language.2.2 ['A', 'B'] 1 (Expr.name (String.mk ['A', 'B'])) (by decide)
     (by decide)⟩

/-- C3: `λx.a` does parse to `Abstraction ['x'] (Name "a")`, but the
greedy-body claim fails: on `λx. a b` the body parser (the full `expr`,
which demands end-of-stream) rejects `a b`, every alternative before
`or(expr)` fails, and the parser re-enters itself at the same position
forever — a stack overflow, not `λx.(a b)`. -/
theorem c3_lambda_body :
    parseWith 3 ("λx.a".toList) =
      some (Except.ok (Expr.abstraction ['x'] (Expr.name "a"))) ∧
    parseDiverges ("λx. a b".toList) := by
  constructor
  · decide
  · have key : ∀ g, exprP (utf8Len ("λx. a b".toList), utf8Len ("λx. a b".toList) + 1) g
        (lex ("λx. a b".toList) 0) = none := by
      intro g
      induction g with
      | zero => rfl
      | succ g2 ih =>
        show exprStep _ (exprP _ g2) _ = none
        apply exprStep_none
        · cases g2 with
          | zero => exact Or.inl rfl
          | succ g3 => exact Or.inr ⟨_, rfl⟩
        · exact Or.inr ⟨_, rfl⟩
        · exact ⟨_, rfl⟩
        · exact ih
    intro f
    unfold parseWith
    rw [key f]

/-- C4: the spec claims `parse("(a)")` equals `parse("a")`.  The code
parses `"a"` to `Name "a"`, but on `"(a)"` the inner `expr` of the
parenthesized atom demands end-of-stream before `)`, the atom fails, and
the `or(expr)` alternative recurses forever at position 0: the parse
never returns. -/
theorem c4_paren_not_transparent :
    parseReturns ("a".toList) (Except.ok (Expr.name "a")) ∧
    parseDiverges ("(a)".toList) := by
  constructor
  · exact ⟨1, by decide⟩
  · have key : ∀ g, exprP (utf8Len ("(a)".toList), utf8Len ("(a)".toList) + 1) g
        (lex ("(a)".toList) 0) = none := by
      intro g
      induction g with
      | zero => rfl
      | succ g2 ih =>
        show exprStep _ (exprP _ g2) _ = none
        apply exprStep_none
        · exact Or.inr ⟨_, rfl⟩
        · cases g2 with
          | zero => exact Or.inl rfl
          | succ g3 => exact Or.inr ⟨_, rfl⟩
        · exact ⟨_, rfl⟩
        · exact ih
    intro f
    unfold parseWith
    rw [key f]

/-- C5: the spec claims `parse("(a")` fails with one `UnclosedDelimiter`
error anchored at offset 0 and end-of-input.  The delimited alternative
does fail that way internally, but `or` then falls through to the
`or(expr)` alternative, which recurses forever at position 0: no error is
ever reported. -/
theorem c5_unclosed_diverges : parseDiverges ("(a".toList) := by
  have key : ∀ g, exprP (utf8Len ("(a".toList), utf8Len ("(a".toList) + 1) g
      (lex ("(a".toList) 0) = none := by
    intro g
    induction g with
    | zero => rfl
    | succ g2 ih =>
      show exprStep _ (exprP _ g2) _ = none
      apply exprStep_none
      · exact Or.inr ⟨_, rfl⟩
      · cases g2 with
        | zero => exact Or.inl rfl
        | succ g3 => exact Or.inr ⟨_, rfl⟩
      · exact ⟨_, rfl⟩
      · exact ih
  intro f
  unfold parseWith
  rw [key f]

/-- C6: the spec claims `parse("λ.")` fails with an `UnexpectedToken`
naming `.` and expecting an identifier.  The abstraction alternative does
fail that way internally, but `or` falls through to `or(expr)`, which
recurses forever at position 0: no error is ever reported. -/
theorem c6_missing_param_diverges : parseDiverges ("λ.".toList) := by
  have key : ∀ g, exprP (utf8Len ("λ.".toList), utf8Len ("λ.".toList) + 1) g
      (lex ("λ.".toList) 0) = none := by
    intro g
    induction g with
    | zero => rfl
    | succ g2 ih =>
      show exprStep _ (exprP _ g2) _ = none
      apply exprStep_none
      · exact Or.inr ⟨_, rfl⟩
      · exact Or.inr ⟨_, rfl⟩
      · exact ⟨_, rfl⟩
      · exact ih
  intro f
  unfold parseWith
  rw [key f]

/-- C7: the spec claims `parse("")` fails cleanly with
`UnexpectedToken { found: None }` and never panics.  On empty input every
alternative before `or(expr)` fails, and `or(expr)` recurses forever at
position 0: the real parser overflows the stack instead of returning an
error. -/
theorem c7_empty_input_diverges : parseDiverges ("".toList) := by
  have key : ∀ g, exprP (utf8Len ("".toList), utf8Len ("".toList) + 1) g
      (lex ("".toList) 0) = none := by
    intro g
    induction g with
    | zero => rfl
    | succ g2 ih =>
      show exprStep _ (exprP _ g2) _ = none
      apply exprStep_none
      · exact Or.inr ⟨_, rfl⟩
      · exact Or.inr ⟨_, rfl⟩
      · exact ⟨_, rfl⟩
      · exact ih
  intro f
  unfold parseWith
  rw [key f]

/-- C8: the spans the tokenizer emits are nonempty, pairwise
non-overlapping in order (hence strictly increasing), and together with
the skipped-whitespace chunks they cover every byte of the input. -/
theorem c8_spans_invariant (cs : List Char) :
    (∀ t ∈ lex cs 0, t.2.1 < t.2.2) ∧
    List.Pairwise (fun t u => t.2.2 ≤ u.2.1) (lex cs 0) ∧
    (∀ i, i < utf8Len cs →
      (∃ t ∈ lex cs 0, t.2.1 ≤ i ∧ i < t.2.2) ∨
      ∃ w ∈ lexChunks cs 0, w.1 = none ∧ w.2.1 ≤ i ∧ i < w.2.2) := by
  have ht := lexChunks_tiles cs 0
  refine ⟨?_, ?_, ?_⟩
  · intro t hmem
    obtain ⟨a, ha, hfa⟩ := List.mem_filterMap.mp hmem
    cases ha1 : a.1 with
    | none => rw [ha1] at hfa; simp at hfa
    | some tk =>
      rw [ha1] at hfa
      simp at hfa
      have hsp : a.2 = t.2 := by rw [← hfa]
      rw [← hsp]
      exact (tiles_mem ht ha).2.1
  · refine List.pairwise_filterMap.mpr ?_
    refine List.Pairwise.imp ?_ (tiles_pairwise ht)
    intro a a' hle b hb b' hb'
    simp only [Option.mem_def, Option.map_eq_some'] at hb hb'
    obtain ⟨tk, ha1, hbv⟩ := hb
    obtain ⟨tk', ha1', hbv'⟩ := hb'
    rw [← hbv, ← hbv']
    exact hle
  · intro i hi
    obtain ⟨x, hx, hx1, hx2⟩ := tiles_cover ht (Nat.zero_le i) (by omega)
    cases hx0 : x.1 with
    | none => exact Or.inr ⟨x, hx, hx0, hx1, hx2⟩
    | some tk =>
      refine Or.inl ⟨(tk, x.2), List.mem_filterMap.mpr ⟨x, hx, by rw [hx0]; rfl⟩, hx1, hx2⟩

/-- Witness for C8 at the input `"λx. (A)"` and byte offset 3 (the
space): that offset is covered by a token span or a whitespace chunk. -/
theorem c8_spans_invariant_witness :
    (∃ t ∈ lex ("λx. (A)".toList) 0, t.2.1 ≤ 3 ∧ 3 < t.2.2) ∨
    ∃ w ∈ lexChunks ("λx. (A)".toList) 0, w.1 = none ∧ w.2.1 ≤ 3 ∧ 3 < w.2.2 :=
  (c8_spans_invariant ("λx. (A)".toList)).2.2 3 (by decide)

/-- C9: parsing is a pure function of the input text — whenever the parse
returns (at whatever recursion depth the run explored), the returned
value, error spans and all, is uniquely determined by the input. -/
theorem c9_deterministic (cs : List Char) (r1 r2 : Except Simple Expr)
    (h1 : parseReturns cs r1) (h2 : parseReturns cs r2) : r1 = r2 :=
  parse_det h1 h2

/-- Witness for C9: two runs on `"a"` (with different fuel) agree. -/
theorem c9_deterministic_witness :
    (Except.ok (Expr.name "a") : Except Simple Expr) = Except.ok (Expr.name "a") :=
  c9_deterministic ("a".toList) _ _ ⟨1, by decide⟩ ⟨2, by decide⟩

/-- C10: every abstraction node of a successful parse carries as `params`
exactly the character sequence of an identifier token of the input —
`ident.chars().collect()` — which is never empty, and a multi-character
identifier yields one single-character parameter per character. -/
theorem c10_params_from_ident (cs : List Char) (f : Nat) (e : Expr)
    (h : parseWith f cs = some (Except.ok e)) :
    ParamsFromIdents ((lex cs 0).map fun t => t.1) e := by
  unfold parseWith at h
  cases he : exprP (utf8Len cs, utf8Len cs + 1) f (lex cs 0) with
  | none => rw [he] at h; simp at h
  | some x =>
    rw [he] at h
    cases x with
    | error e1 => simp at h
    | ok p =>
      obtain ⟨e0, rest⟩ := p
      simp at h
      obtain ⟨hrest, hacc⟩ := exprP_ok_accepts _ f _ e0 rest he
      rw [← h]
      refine accepts_params hacc _ (fun x hx => hx) ?_
      intro s hs
      obtain ⟨t, ht, hts⟩ := List.mem_map.mp hs
      exact lex_ident_ne ht s hts

/-- Witness for C10 at `"λAB.x"`: the two-character uppercase identifier
becomes the two single-character parameters `['A', 'B']`. -/
theorem c10_params_from_ident_witness :
    parseWith 3 ("λAB.x".toList) =
      some (Except.ok (Expr.abstraction ['A', 'B'] (Expr.name "x"))) ∧
    ParamsFromIdents ((lex ("λAB.x".toList) 0).map fun t => t.1)
      (Expr.abstraction ['A', 'B'] (Expr.name "x")) :=
  ⟨by decide, c10_params_from_ident ("λAB.x".toList) 3 _ (by decide)⟩

end Lam